import Mathlib

/-!
Shallow embedding of `src/app.py` from the `batch_speech_text` repository.

Text is modelled as `List Char` (Python `str`).  The pure text-manipulation
functions (`split_text_into_chunks`, the filename-based sort key of
`process_file`) are translated directly; the effectful functions
(`generate_audio_with_retries`, `combine_audio_files`, `process_file`) are
translated into pure functions from the outcomes of their external calls
(synthesis service, ffmpeg, completion order of futures) to a trace of the
observable effects they perform (files written, manifest content, source-file
relocation).
-/

namespace BatchSpeechText

/-- The characters stripped by Python `str.strip()` with no argument
(ASCII whitespace: space, tab, newline, carriage return, vertical tab,
form feed). -/
def pyIsSpace (c : Char) : Bool :=
  c = ' ' || c = '\t' || c = '\n' || c = '\r' || c = '\x0b' || c = '\x0c'

/-- Python `str.strip()`: remove leading and trailing whitespace. -/
def pyStrip (l : List Char) : List Char :=
  ((l.dropWhile pyIsSpace).reverse.dropWhile pyIsSpace).reverse

/-- Python `text.rfind(" ", 0, e)`: the greatest index `i < e` with
`text[i] = ' '`, as an `Option` (`none` for Python's `-1`). -/
def rfindSpace : List Char → Nat → Option Nat
  | [], _ => none
  | _ :: _, 0 => none
  | c :: cs, e + 1 =>
    match rfindSpace cs e with
    | some i => some (i + 1)
    | none => if c = ' ' then some 0 else none

/-- The value of `split_index` in one iteration of the loop of
`split_text_into_chunks` (src/app.py lines 58–60): the last space in the
window, or `max_length` when there is none (forced split). -/
def splitIndex (text : List Char) (max_length : Nat) : Nat :=
  match rfindSpace text max_length with
  | some i => i
  | none => max_length

/-- One iteration of the `while` loop of `split_text_into_chunks`
(src/app.py lines 57–62): the appended chunk and the new value of `text`. -/
def chunkStep (text : List Char) (max_length : Nat) : List Char × List Char :=
  (text.take (splitIndex text max_length),
   pyStrip (text.drop (splitIndex text max_length)))

/-- The loop of `split_text_into_chunks`, with explicit fuel.  The source's
`while` loop terminates for every `max_length ≥ 1` (each iteration strictly
shortens `text`, see `chunker_termination`), so any fuel above the initial
text length yields the loop's value; the out-of-fuel branch is unreachable
then. -/
def splitFuel : Nat → List Char → Nat → List (List Char)
  | 0, _, _ => []
  | fuel + 1, text, max_length =>
    if max_length < text.length then
      (chunkStep text max_length).1 :: splitFuel fuel (chunkStep text max_length).2 max_length
    else if text = [] then [] else [text]

/-- Default of the `MAX_CHUNK_SIZE` configuration (src/app.py line 32). -/
def MAX_CHUNK_SIZE : Nat := 4096

/-- `split_text_into_chunks(text, max_length)` (src/app.py lines 54–65):
repeatedly cut at the last space strictly before position `max_length`
(forced cut at `max_length` when there is none), strip the remainder, and
finally append the leftover text if it is non-empty (Python truthiness:
any non-empty string, including pure whitespace, is appended). -/
def split_text_into_chunks (text : List Char) (max_length : Nat := MAX_CHUNK_SIZE) :
    List (List Char) :=
  splitFuel (text.length + 1) text max_length

/-- `t` is reconstructed from the chunk list by re-inserting (only) whitespace
strings between consecutive chunks and after the last chunk. -/
def reassembles : List (List Char) → List Char → Prop
  | [], t => ∀ c ∈ t, pyIsSpace c = true
  | chunk :: rest, t =>
    ∃ w t', t = chunk ++ w ++ t' ∧ (∀ c ∈ w, pyIsSpace c = true) ∧ reassembles rest t'

/-- Every chunk except possibly the last reaches length `m` only when it
contains no space at all (i.e. it came from a forced cut). -/
def nonFinalForced (m : Nat) : List (List Char) → Prop
  | [] => True
  | [_] => True
  | c :: c' :: rest => (c.length = m → ' ' ∉ c) ∧ nonFinalForced m (c' :: rest)

/-- Helper for `hasWordLongerThan`: `run` is the length of the current
whitespace-free run. -/
def hasLongWordAux : List Char → Nat → Nat → Bool
  | [], run, n => decide (n < run)
  | c :: rest, run, n =>
    if pyIsSpace c then decide (n < run) || hasLongWordAux rest 0 n
    else hasLongWordAux rest (run + 1) n

/-- `text` contains a maximal whitespace-free run (a word) longer than `n`. -/
def hasWordLongerThan (text : List Char) (n : Nat) : Bool :=
  hasLongWordAux text 0 n

/-! ### Synthesis client: `generate_audio_with_retries` (src/app.py lines 67–77) -/

/-- Observable behaviour of one call of `generate_audio_with_retries`:
the returned value or propagated error (`none` when `retries = 0`, where the
Python loop body never runs and the function falls through returning `None`),
the number of synthesis attempts made, and the sequence of backoff sleeps
performed (in time units, in order). -/
structure RetryTrace (ε α : Type) where
  result : Option (Except ε α)
  attempts : Nat
  sleeps : List Nat

/-- The `for attempt in range(retries)` loop (lines 69–77), as a function of
the outcome `f attempt` of each external synthesis attempt:
on success return at once; on failure, if this is not the last attempt,
sleep `2 ^ attempt` and continue, otherwise re-raise. -/
def retryGo {ε α : Type} (f : Nat → Except ε α) : Nat → Nat → RetryTrace ε α
  | _, 0 => ⟨none, 0, []⟩
  | attempt, remaining + 1 =>
    match f attempt with
    | .ok a => ⟨some (.ok a), 1, []⟩
    | .error e =>
      if remaining = 0 then ⟨some (.error e), 1, []⟩
      else
        let t := retryGo f (attempt + 1) remaining
        ⟨t.result, t.attempts + 1, 2 ^ attempt :: t.sleeps⟩

/-- `generate_audio_with_retries(chunk, chunk_index, file_stem, retries=3)`
(lines 67–77), abstracted over the per-attempt outcome of `generate_audio`. -/
def generate_audio_with_retries {ε α : Type} (f : Nat → Except ε α)
    (retries : Nat := 3) : RetryTrace ε α :=
  retryGo f 0 retries

/-! ### Working-area paths (src/app.py lines 27, 82–85, 104) -/

/-- Default of the `TEMP_FOLDER` configuration (line 27), modelled
project-root-relative. -/
def TEMP_FOLDER : List Char := "temp".toList

/-- The separator written between the document stem and the 1-based chunk
number in artifact filenames (line 85) and split on again at line 150. -/
def partSep : List Char := "_part_".toList

/-- `f"{file_stem}_part_{chunk_index + 1}"`: the stem (filename without
extension) of the chunk artifact written by `generate_audio` (line 85). -/
def audioFileStem (file_stem : List Char) (chunk_index : Nat) : List Char :=
  file_stem ++ partSep ++ Nat.toDigits 10 (chunk_index + 1)

/-- `temp_subdir = TEMP_FOLDER / file_stem` (line 82): the per-document
working subdirectory. -/
def docSubdir (file_stem : List Char) : List Char :=
  TEMP_FOLDER ++ ('/' :: file_stem)

/-- `output_audio_path` of `generate_audio` (line 85): the chunk artifact's
full path. -/
def audioArtifactPath (file_stem : List Char) (chunk_index : Nat) : List Char :=
  docSubdir file_stem ++ ('/' :: audioFileStem file_stem chunk_index) ++ ".mp3".toList

/-- `concat_file = TEMP_FOLDER / "concat_list.txt"` (line 104): the manifest
path used by `combine_audio_files`, the same for every document. -/
def concat_file : List Char := TEMP_FOLDER ++ "/concat_list.txt".toList

/-! ### The assembler's sort key (src/app.py line 150) -/

/-- Helper for `pySplitOnPart`: `acc` is the current segment, reversed.  The
fuel argument (structural, for kernel reducibility) only needs to exceed the
number of scan steps; every step consumes at least one character, so the
fuel-exhaustion branch is unreachable when started with the input length. -/
def splitOnPartAux : Nat → List Char → List Char → List (List Char)
  | _, acc, [] => [acc.reverse]
  | 0, acc, l => [acc.reverse ++ l]
  | fuel + 1, acc, c :: rest =>
    if partSep.isPrefixOf (c :: rest) then
      acc.reverse :: splitOnPartAux fuel [] ((c :: rest).drop partSep.length)
    else splitOnPartAux fuel (c :: acc) rest

/-- Python `s.split("_part_")`: split on each non-overlapping occurrence of
the separator, scanning left to right. -/
def pySplitOnPart (l : List Char) : List (List Char) :=
  splitOnPartAux l.length [] l

/-- Numeric value of a digit character. -/
def charDigitVal (c : Char) : Nat := c.toNat - '0'.toNat

/-- Python `int(s)` on the strings that occur here: succeeds exactly on
non-empty all-digit strings (Python `int` additionally accepts signs,
surrounding whitespace and digit-group underscores, none of which can make
the suffixes appearing here parse differently). -/
def parseNat (l : List Char) : Option Nat :=
  if l ≠ [] ∧ l.all Char.isDigit then
    some (l.foldl (fun acc c => 10 * acc + charDigitVal c) 0)
  else none

/-- The sort key of line 150, `int(x.stem.split('_part_')[-1])`, applied to an
artifact's file stem; `none` models `int` raising `ValueError`. -/
def recoverIndex (artifact_stem : List Char) : Option Nat :=
  parseNat ((pySplitOnPart artifact_stem).getLastD [])

/-- Total version of the key used inside the sort, meaningful only when every
key parses (the parse is checked before sorting in `process_file` below,
mirroring the fact that `int` raises before `sort` reorders anything). -/
def sortKey (artifact_stem : List Char) : Nat := (recoverIndex artifact_stem).getD 0

/-- `audio_files.sort(key=lambda x: int(x.stem.split('_part_')[-1]))`
(line 150): a stable sort by the recovered number, ascending. -/
def sortAudioFiles (files : List (List Char)) : List (List Char) :=
  files.mergeSort (fun a b => sortKey a ≤ sortKey b)

/-! ### `combine_audio_files` (src/app.py lines 102–122) -/

/-- Observable filesystem behaviour of one `combine_audio_files` call. -/
structure CombineTrace where
  manifestPath : List Char
  manifestLines : List (List Char)
  outputPath : List Char
  manifestDeleted : Bool
  succeeded : Bool
deriving DecidableEq

/-- `combine_audio_files(audio_files, final_output_path)` (lines 102–122) as
a function of the external ffmpeg call's outcome: write the manifest (one
`file '<path>'` line per artifact, in the given order) at the fixed path
`concat_file`, run ffmpeg, delete the manifest on every exit path, and
re-raise ffmpeg failures. -/
def combine_audio_files (audio_files : List (List Char))
    (final_output_path : List Char) (ffmpegOk : Bool) : CombineTrace :=
  { manifestPath := concat_file
    manifestLines := audio_files.map (fun f => "file '".toList ++ f ++ "'".toList)
    outputPath := final_output_path
    manifestDeleted := true
    succeeded := ffmpegOk }

/-! ### `process_file` (src/app.py lines 124–168) -/

/-- Per-document outcome recorded by the coordinator. -/
inductive DocOutcome
  | Skipped
  | Completed
  | Failed
deriving DecidableEq

/-- Observable behaviour of one `process_file` call. -/
structure ProcessTrace where
  outcome : DocOutcome
  numChunks : Nat
  assemblyRan : Bool
  manifest : Option (List (List Char))
  sourceMoved : Bool
deriving DecidableEq

/-- The result-collection loop (lines 146–147): `audio_files` accumulates the
artifacts in future-completion order (`arrival`); `future.result()` re-raises
the first failed chunk's terminal error, aborting the document.  `synthOk i`
is chunk `i`'s terminal outcome after `generate_audio_with_retries`. -/
def collectResults (synthOk : Nat → Bool) (file_stem : List Char) :
    List Nat → Option (List (List Char))
  | [] => some []
  | i :: rest =>
    if synthOk i then
      (collectResults synthOk file_stem rest).map (audioFileStem file_stem i :: ·)
    else none

/-- The manifest content written by `combine_audio_files` when `process_file`
reaches it (line 150 then 105–107): the collected artifact file stems,
sorted by the recovered key and resolved back to their full paths. -/
def manifestPaths (file_stem : List Char) (files : List (List Char)) :
    List (List Char) :=
  (sortAudioFiles files).map
    (fun f => docSubdir file_stem ++ ('/' :: f) ++ ".mp3".toList)

/-- `process_file(file)` (lines 124–168) as a function of the external
outcomes: the file's text, the terminal per-chunk synthesis outcomes, the
completion order of the chunk futures, and the ffmpeg outcome.  Any raised
error is caught at line 167 and recorded as a failure; the source file is
relocated (line 164) only after `combine_audio_files` returns. -/
def process_file (file_stem : List Char) (text_content : List Char)
    (max_length : Nat) (synthOk : Nat → Bool) (arrival : List Nat)
    (ffmpegOk : Bool) : ProcessTrace :=
  if pyStrip text_content = [] then
    ⟨.Skipped, 0, false, none, false⟩
  else
    let chunks := split_text_into_chunks text_content max_length
    match collectResults synthOk file_stem arrival with
    | none => ⟨.Failed, chunks.length, false, none, false⟩
    | some files =>
      if files.all (fun f => (recoverIndex f).isSome) then
        if ffmpegOk then
          ⟨.Completed, chunks.length, true, some (manifestPaths file_stem files), true⟩
        else
          ⟨.Failed, chunks.length, true, some (manifestPaths file_stem files), false⟩
      else ⟨.Failed, chunks.length, false, none, false⟩

/-! ### Basic lemmas about the chunker's building blocks -/

lemma pyStrip_length_le (l : List Char) : (pyStrip l).length ≤ l.length := by
  unfold pyStrip
  have h1 := (List.dropWhile_sublist (l := l) pyIsSpace).length_le
  have h2 :=
    (List.dropWhile_sublist (l := (l.dropWhile pyIsSpace).reverse) pyIsSpace).length_le
  simp only [List.length_reverse] at h1 h2 ⊢
  omega

lemma pyStrip_cons_space_length_le (tl : List Char) :
    (pyStrip (' ' :: tl)).length ≤ tl.length := by
  unfold pyStrip
  rw [List.dropWhile_cons_of_pos (by decide)]
  have h1 := (List.dropWhile_sublist (l := tl) pyIsSpace).length_le
  have h2 :=
    (List.dropWhile_sublist (l := (tl.dropWhile pyIsSpace).reverse) pyIsSpace).length_le
  simp only [List.length_reverse] at h1 h2 ⊢
  omega

lemma pyStrip_decomp (l : List Char) :
    ∃ w₁ w₂, (∀ c ∈ w₁, pyIsSpace c = true) ∧ (∀ c ∈ w₂, pyIsSpace c = true) ∧
      l = w₁ ++ pyStrip l ++ w₂ := by
  refine ⟨l.takeWhile pyIsSpace,
    ((l.dropWhile pyIsSpace).reverse.takeWhile pyIsSpace).reverse, ?_, ?_, ?_⟩
  · intro c hc; exact List.mem_takeWhile_imp hc
  · intro c hc; rw [List.mem_reverse] at hc; exact List.mem_takeWhile_imp hc
  · unfold pyStrip
    conv_lhs => rw [← List.takeWhile_append_dropWhile (p := pyIsSpace) (l := l)]
    rw [List.append_assoc]
    congr 1
    generalize l.dropWhile pyIsSpace = m
    have hm : m.reverse.takeWhile pyIsSpace ++ m.reverse.dropWhile pyIsSpace = m.reverse :=
      List.takeWhile_append_dropWhile ..
    calc m = m.reverse.reverse := by simp
    _ = (m.reverse.takeWhile pyIsSpace ++ m.reverse.dropWhile pyIsSpace).reverse := by
        rw [hm]
    _ = (m.reverse.dropWhile pyIsSpace).reverse ++
          (m.reverse.takeWhile pyIsSpace).reverse := by
        rw [List.reverse_append]

lemma rfindSpace_lt : ∀ {l : List Char} {e i : Nat}, rfindSpace l e = some i → i < e := by
  intro l
  induction l with
  | nil => intro e i h; simp [rfindSpace] at h
  | cons c cs ih =>
    intro e i h
    cases e with
    | zero => simp [rfindSpace] at h
    | succ e' =>
      simp only [rfindSpace] at h
      cases hr : rfindSpace cs e' with
      | some j =>
        rw [hr] at h
        simp only [Option.some.injEq] at h
        have := ih hr
        omega
      | none =>
        rw [hr] at h
        by_cases hc : c = ' '
        · simp [hc] at h; omega
        · simp [hc] at h

lemma rfindSpace_get :
    ∀ {l : List Char} {e i : Nat}, rfindSpace l e = some i → l[i]? = some ' ' := by
  intro l
  induction l with
  | nil => intro e i h; simp [rfindSpace] at h
  | cons c cs ih =>
    intro e i h
    cases e with
    | zero => simp [rfindSpace] at h
    | succ e' =>
      simp only [rfindSpace] at h
      cases hr : rfindSpace cs e' with
      | some j =>
        rw [hr] at h
        simp only [Option.some.injEq] at h
        subst h
        simpa using ih hr
      | none =>
        rw [hr] at h
        by_cases hc : c = ' '
        · rw [if_pos hc] at h
          simp only [Option.some.injEq] at h
          subst h
          simp [hc]
        · simp [hc] at h

lemma rfindSpace_none :
    ∀ {l : List Char} {e : Nat}, rfindSpace l e = none →
      ∀ j, j < e → l[j]? ≠ some ' ' := by
  intro l
  induction l with
  | nil => intro e _ j _; simp
  | cons c cs ih =>
    intro e h j hj
    cases e with
    | zero => omega
    | succ e' =>
      simp only [rfindSpace] at h
      cases hr : rfindSpace cs e' with
      | some j' => rw [hr] at h; simp at h
      | none =>
        rw [hr] at h
        by_cases hc : c = ' '
        · simp [hc] at h
        · cases j with
          | zero => simpa using hc
          | succ j' =>
            simp only [List.getElem?_cons_succ]
            exact ih hr j' (by omega)

lemma splitIndex_le (text : List Char) (m : Nat) : splitIndex text m ≤ m := by
  unfold splitIndex
  cases hr : rfindSpace text m with
  | some i => exact Nat.le_of_lt (rfindSpace_lt hr)
  | none => exact Nat.le_refl m

lemma no_space_in_take {text : List Char} {m : Nat} (h : rfindSpace text m = none) :
    ' ' ∉ text.take m := by
  intro hmem
  rw [List.mem_iff_getElem?] at hmem
  obtain ⟨j, hget⟩ := hmem
  have hjlen : j < (text.take m).length := (List.getElem?_eq_some.mp hget).1
  have hjm : j < m := by
    rw [List.length_take] at hjlen
    omega
  rw [List.getElem?_take_of_lt hjm] at hget
  exact rfindSpace_none h j hjm hget

lemma chunkStep_snd_length_lt {text : List Char} {m : Nat}
    (hm : 0 < m) (hlen : m < text.length) :
    (chunkStep text m).2.length < text.length := by
  unfold chunkStep splitIndex
  cases hr : rfindSpace text m with
  | none =>
    have h1 : (text.drop m).length = text.length - m := List.length_drop ..
    have h2 := pyStrip_length_le (text.drop m)
    simp only
    omega
  | some i =>
    simp only
    rcases Nat.eq_zero_or_pos i with hi | hi
    · subst hi
      have hsp := rfindSpace_get hr
      cases text with
      | nil => simp at hlen
      | cons c tl =>
        simp only [List.getElem?_cons_zero, Option.some.injEq] at hsp
        subst hsp
        have := pyStrip_cons_space_length_le tl
        simp only [List.drop_zero]
        simp only [List.length_cons]
        omega
    · have h1 : (text.drop i).length = text.length - i := List.length_drop ..
      have h2 := pyStrip_length_le (text.drop i)
      omega

lemma splitFuel_succ_of_lt {fuel : Nat} {text : List Char} {m : Nat}
    (h : m < text.length) :
    splitFuel (fuel + 1) text m =
      (chunkStep text m).1 :: splitFuel fuel (chunkStep text m).2 m := by
  simp [splitFuel, h]

lemma splitFuel_succ_of_ge {fuel : Nat} {text : List Char} {m : Nat}
    (h : ¬ m < text.length) :
    splitFuel (fuel + 1) text m = if text = [] then [] else [text] := by
  simp [splitFuel, h]

/-- Any two sufficient fuel values give the same chunk list: the loop
terminates for `0 < max_length`. -/
lemma splitFuel_congr {m : Nat} (hm : 0 < m) :
    ∀ (f₁ : Nat) (text : List Char) (f₂ : Nat), text.length < f₁ → text.length < f₂ →
      splitFuel f₁ text m = splitFuel f₂ text m := by
  intro f₁
  induction f₁ with
  | zero => intro text f₂ h1 _; omega
  | succ n ih =>
    intro text f₂ h1 h2
    cases f₂ with
    | zero => omega
    | succ f₂' =>
      by_cases hl : m < text.length
      · rw [splitFuel_succ_of_lt hl, splitFuel_succ_of_lt hl]
        have hd := chunkStep_snd_length_lt hm hl
        rw [ih (chunkStep text m).2 f₂' (by omega) (by omega)]
      · rw [splitFuel_succ_of_ge hl, splitFuel_succ_of_ge hl]

lemma reassembles_append_ws :
    ∀ {cs : List (List Char)} {t ws : List Char}, reassembles cs t →
      (∀ c ∈ ws, pyIsSpace c = true) → reassembles cs (t ++ ws) := by
  intro cs
  induction cs with
  | nil =>
    intro t ws h hws c hc
    rcases List.mem_append.1 hc with h' | h'
    · exact h c h'
    · exact hws c h'
  | cons chunk rest ih =>
    intro t ws h hws
    obtain ⟨w, t', rfl, hw, hr⟩ := h
    exact ⟨w, t' ++ ws, by simp, hw, ih hr hws⟩

/-- The loop invariant of `split_text_into_chunks`: round trip, chunk-length
bound, forced-cut characterisation of non-final full-length chunks. -/
lemma splitFuel_spec {m : Nat} (hm : 0 < m) :
    ∀ (fuel : Nat) (text : List Char), text.length < fuel →
      reassembles (splitFuel fuel text m) text ∧
      (∀ c ∈ splitFuel fuel text m, c.length ≤ m) ∧
      nonFinalForced m (splitFuel fuel text m) := by
  intro fuel
  induction fuel with
  | zero => intro text h; omega
  | succ n ih =>
    intro text hlt
    by_cases hl : m < text.length
    · rw [splitFuel_succ_of_lt hl]
      have hd := chunkStep_snd_length_lt hm hl
      obtain ⟨ihr, ihb, ihn⟩ := ih (chunkStep text m).2 (by omega)
      have hsi : splitIndex text m ≤ m := splitIndex_le text m
      refine ⟨?_, ?_, ?_⟩
      · -- round trip
        obtain ⟨w₁, w₂, hw₁, hw₂, hdec⟩ := pyStrip_decomp (text.drop (splitIndex text m))
        refine ⟨w₁, (chunkStep text m).2 ++ w₂, ?_, hw₁, reassembles_append_ws ihr hw₂⟩
        show text = List.take (splitIndex text m) text ++ w₁ ++
          (pyStrip (List.drop (splitIndex text m) text) ++ w₂)
        conv_lhs => rw [← List.take_append_drop (splitIndex text m) text, hdec]
        simp [List.append_assoc]
      · -- length bound
        intro c hc
        rcases List.mem_cons.1 hc with rfl | hmem
        · unfold chunkStep
          simp only [List.length_take]
          omega
        · exact ihb c hmem
      · -- non-final full-length chunks are forced cuts
        cases hrest : splitFuel n (chunkStep text m).2 m with
        | nil => simp [nonFinalForced]
        | cons c' cs =>
          rw [hrest] at ihn
          refine ⟨?_, ihn⟩
          intro hclen hsp
          have hlen' : splitIndex text m ⊓ text.length = m := by
            have h : (chunkStep text m).1.length = m := hclen
            simpa [chunkStep, List.length_take] using h
          cases hr : rfindSpace text m with
          | some i =>
            have hsi' : splitIndex text m = i := by unfold splitIndex; rw [hr]
            have hi := rfindSpace_lt hr
            rw [hsi'] at hlen'
            omega
          | none =>
            have hsi' : splitIndex text m = m := by unfold splitIndex; rw [hr]
            have hsp' : ' ' ∈ List.take m text := by
              have h : ' ' ∈ List.take (splitIndex text m) text := hsp
              rwa [hsi'] at h
            exact no_space_in_take hr hsp'
    · rw [splitFuel_succ_of_ge hl]
      by_cases hnil : text = []
      · subst hnil
        simp [reassembles, nonFinalForced]
      · rw [if_neg hnil]
        refine ⟨⟨[], [], by simp, by simp, by simp [reassembles]⟩, ?_, ?_⟩
        · intro c hc
          rcases List.mem_singleton.1 hc with rfl
          omega
        · simp [nonFinalForced]

/-! ### Lemmas about the retry loop -/

lemma retryGo_succ_ok {ε α : Type} {f : Nat → Except ε α} {a r : Nat} {v : α}
    (h : f a = Except.ok v) :
    retryGo f a (r + 1) = ⟨some (Except.ok v), 1, []⟩ := by
  simp [retryGo, h]

lemma retryGo_one_err {ε α : Type} {f : Nat → Except ε α} {a : Nat} {e : ε}
    (h : f a = Except.error e) :
    retryGo f a 1 = ⟨some (Except.error e), 1, []⟩ := by
  simp [retryGo, h]

lemma retryGo_succ_err {ε α : Type} {f : Nat → Except ε α} {a r : Nat} {e : ε}
    (h : f a = Except.error e) (hr : r ≠ 0) :
    retryGo f a (r + 1) =
      ⟨(retryGo f (a + 1) r).result, (retryGo f (a + 1) r).attempts + 1,
        2 ^ a :: (retryGo f (a + 1) r).sleeps⟩ := by
  simp [retryGo, h, hr]

lemma retryGo_attempts_le {ε α : Type} (f : Nat → Except ε α) :
    ∀ (r a : Nat), (retryGo f a r).attempts ≤ r := by
  intro r
  induction r with
  | zero => intro a; simp [retryGo]
  | succ n ih =>
    intro a
    cases hf : f a with
    | ok v => rw [retryGo_succ_ok hf]; show 1 ≤ n + 1; omega
    | error e =>
      by_cases hn : n = 0
      · subst hn; rw [retryGo_one_err hf]
      · rw [retryGo_succ_err hf hn]
        have := ih (a + 1)
        simp only
        omega

lemma retryGo_success {ε α : Type} (f : Nat → Except ε α) :
    ∀ (k a r : Nat), k < r →
      (∀ j, j < k → ∃ e, f (a + j) = Except.error e) →
      ∀ v, f (a + k) = Except.ok v →
      retryGo f a r =
        ⟨some (Except.ok v), k + 1, (List.range' a k).map (fun j => 2 ^ j)⟩ := by
  intro k
  induction k with
  | zero =>
    intro a r hr hfail v hv
    cases r with
    | zero => omega
    | succ r' =>
      rw [Nat.add_zero] at hv
      rw [retryGo_succ_ok hv]
      simp
  | succ n ih =>
    intro a r hr hfail v hv
    cases r with
    | zero => omega
    | succ r' =>
      obtain ⟨e, he⟩ := hfail 0 (by omega)
      rw [Nat.add_zero] at he
      rw [retryGo_succ_err he (by omega : r' ≠ 0)]
      have hfail' : ∀ j, j < n → ∃ e', f (a + 1 + j) = Except.error e' := by
        intro j hj
        obtain ⟨e', he'⟩ := hfail (j + 1) (by omega)
        exact ⟨e', by rw [show a + 1 + j = a + (j + 1) by omega]; exact he'⟩
      have hv' : f (a + 1 + n) = Except.ok v := by
        rw [show a + 1 + n = a + (n + 1) by omega]; exact hv
      rw [ih (a + 1) r' (by omega) hfail' v hv']
      simp [List.range'_succ]

lemma retryGo_allfail {ε α : Type} (f : Nat → Except ε α) :
    ∀ (r a : Nat) (e : ε), 0 < r →
      (∀ j, j < r → ∃ e', f (a + j) = Except.error e') →
      f (a + (r - 1)) = Except.error e →
      retryGo f a r =
        ⟨some (Except.error e), r, (List.range' a (r - 1)).map (fun j => 2 ^ j)⟩ := by
  intro r
  induction r with
  | zero => intro a e h; omega
  | succ n ih =>
    intro a e hpos hfail hlast
    cases n with
    | zero =>
      rw [show a + (0 + 1 - 1) = a by omega] at hlast
      rw [retryGo_one_err hlast]
      simp
    | succ m =>
      obtain ⟨e0, he0⟩ := hfail 0 (by omega)
      rw [Nat.add_zero] at he0
      rw [retryGo_succ_err he0 (by omega : m + 1 ≠ 0)]
      have hfail' : ∀ j, j < m + 1 → ∃ e', f (a + 1 + j) = Except.error e' := by
        intro j hj
        obtain ⟨e', he'⟩ := hfail (j + 1) (by omega)
        exact ⟨e', by rw [show a + 1 + j = a + (j + 1) by omega]; exact he'⟩
      have hlast' : f (a + 1 + (m + 1 - 1)) = Except.error e := by
        rw [show a + 1 + (m + 1 - 1) = a + (m + 1 + 1 - 1) by omega]
        exact hlast
      rw [ih (a + 1) e (by omega) hfail' hlast']
      simp [show m + 1 + 1 - 1 = m + 1 by omega, List.range'_succ]

/-! ### Lemmas about the assembler's sort and the collection loop -/

lemma eq_of_perm_of_sorted_strict {α : Type} (k : α → Nat) :
    ∀ (xs ys : List α), xs.Perm ys →
      xs.Pairwise (fun a b => k a ≤ k b) →
      ys.Pairwise (fun a b => k a < k b) →
      xs = ys := by
  intro xs
  induction xs with
  | nil =>
    intro ys hp _ _
    exact hp.nil_eq
  | cons x xs' ih =>
    intro ys hp hs hys
    cases ys with
    | nil => exact absurd hp.symm (by simp)
    | cons y ys' =>
      have hxy : x = y := by
        by_contra hne
        have hxmem : x ∈ y :: ys' := hp.mem_iff.mp (List.mem_cons_self x xs')
        have hx' : x ∈ ys' := by
          rcases List.mem_cons.1 hxmem with h | h
          · exact absurd h hne
          · exact h
        have hymem : y ∈ x :: xs' := hp.mem_iff.mpr (List.mem_cons_self y ys')
        have hy' : y ∈ xs' := by
          rcases List.mem_cons.1 hymem with h | h
          · exact absurd h.symm hne
          · exact h
        have h1 : k x ≤ k y := (List.pairwise_cons.1 hs).1 y hy'
        have h2 : k y < k x := (List.pairwise_cons.1 hys).1 x hx'
        omega
      subst hxy
      have hp' : xs'.Perm ys' := hp.cons_inv
      rw [ih ys' hp' (List.pairwise_cons.1 hs).2 (List.pairwise_cons.1 hys).2]

lemma sortAudioFiles_sorted (files : List (List Char)) :
    (sortAudioFiles files).Pairwise (fun a b => sortKey a ≤ sortKey b) := by
  have h := @List.sorted_mergeSort (List Char)
    (fun a b => decide (sortKey a ≤ sortKey b))
    (fun a b c hab hbc => by
      simp only [decide_eq_true_eq] at hab hbc ⊢
      omega)
    (fun a b => by
      simp only [Bool.or_eq_true, decide_eq_true_eq]
      omega)
    files
  exact h.imp (fun hab => by simpa using hab)

lemma sortAudioFiles_perm (files : List (List Char)) :
    (sortAudioFiles files).Perm files :=
  List.mergeSort_perm files _

lemma collectResults_all_ok {synthOk : Nat → Bool} {file_stem : List Char} :
    ∀ {arrival : List Nat}, (∀ i ∈ arrival, synthOk i = true) →
      collectResults synthOk file_stem arrival =
        some (arrival.map (audioFileStem file_stem)) := by
  intro arrival
  induction arrival with
  | nil => intro _; rfl
  | cons a rest ih =>
    intro h
    have ha : synthOk a = true := h a (List.mem_cons_self a rest)
    simp only [collectResults, ha, if_pos]
    rw [ih (fun i hi => h i (List.mem_cons_of_mem a hi))]
    rfl

lemma collectResults_none_of_fail {synthOk : Nat → Bool} {file_stem : List Char} :
    ∀ {arrival : List Nat} {i : Nat}, i ∈ arrival → synthOk i = false →
      collectResults synthOk file_stem arrival = none := by
  intro arrival
  induction arrival with
  | nil => intro i h; simp at h
  | cons a rest ih =>
    intro i hmem hfail
    rcases List.mem_cons.1 hmem with rfl | h
    · simp [collectResults, hfail]
    · simp only [collectResults]
      by_cases ha : synthOk a = true
      · rw [if_pos ha, ih h hfail]; rfl
      · rw [if_neg ha]

/-! ### Unfolding lemmas for `process_file` -/

lemma process_file_skip {file_stem text : List Char} {max_length : Nat}
    {synthOk : Nat → Bool} {arrival : List Nat} {ffmpegOk : Bool}
    (h : pyStrip text = []) :
    process_file file_stem text max_length synthOk arrival ffmpegOk =
      ⟨.Skipped, 0, false, none, false⟩ := by
  simp [process_file, h]

lemma process_file_collect_none {file_stem text : List Char} {max_length : Nat}
    {synthOk : Nat → Bool} {arrival : List Nat} {ffmpegOk : Bool}
    (hns : ¬ pyStrip text = [])
    (hc : collectResults synthOk file_stem arrival = none) :
    process_file file_stem text max_length synthOk arrival ffmpegOk =
      ⟨.Failed, (split_text_into_chunks text max_length).length,
        false, none, false⟩ := by
  simp [process_file, hns, hc]

lemma process_file_parse_fail {file_stem text : List Char} {max_length : Nat}
    {synthOk : Nat → Bool} {arrival : List Nat} {ffmpegOk : Bool}
    {files : List (List Char)}
    (hns : ¬ pyStrip text = [])
    (hc : collectResults synthOk file_stem arrival = some files)
    (hall : ¬ files.all (fun f => (recoverIndex f).isSome) = true) :
    process_file file_stem text max_length synthOk arrival ffmpegOk =
      ⟨.Failed, (split_text_into_chunks text max_length).length,
        false, none, false⟩ := by
  simp [process_file, hns, hc, hall]

lemma process_file_assemble {file_stem text : List Char} {max_length : Nat}
    {synthOk : Nat → Bool} {arrival : List Nat} {ffmpegOk : Bool}
    {files : List (List Char)}
    (hns : ¬ pyStrip text = [])
    (hc : collectResults synthOk file_stem arrival = some files)
    (hall : files.all (fun f => (recoverIndex f).isSome) = true) :
    process_file file_stem text max_length synthOk arrival ffmpegOk =
      if ffmpegOk then
        ⟨.Completed, (split_text_into_chunks text max_length).length,
          true, some (manifestPaths file_stem files), true⟩
      else
        ⟨.Failed, (split_text_into_chunks text max_length).length,
          true, some (manifestPaths file_stem files), false⟩ := by
  by_cases hff : ffmpegOk = true
  · simp [process_file, hns, hc, hall, hff]
  · simp only [Bool.not_eq_true] at hff
    simp [process_file, hns, hc, hall, hff]

/-! ## Claim theorems -/

/-- C2, counterexample to the claim as stated: `split "ab" 2` produces a
chunk of length exactly `maxLength = 2` although no word of the input is
longer than 2 characters, so "every chunk's length is at most L, with
equality only possible when a forced cut occurs inside a word longer than L"
fails: the final chunk can reach length `L` without any forced cut. -/
theorem chunker_full_length_chunk_without_long_word :
    split_text_into_chunks "ab".toList 2 = ["ab".toList] ∧
    (∃ c ∈ split_text_into_chunks "ab".toList 2, c.length = 2) ∧
    hasWordLongerThan "ab".toList 2 = false := by decide

/-- C2 (amended): for every non-empty text `T` and `0 < L`, the chunks of
`split(T, L)` reassemble to `T` exactly, by re-inserting whitespace-only
strings at the split points and at the end (`reassembles`); every chunk's
length is at most `L`; and a chunk other than the last reaches length
exactly `L` only when it contains no space at all, i.e. only through a
forced cut (`nonFinalForced`).  The final chunk may reach length `L`
without a forced cut. -/
theorem chunker_roundtrip_and_bounds (text : List Char) (L : Nat)
    (hL : 0 < L) (hne : text ≠ []) :
    reassembles (split_text_into_chunks text L) text ∧
    (∀ c ∈ split_text_into_chunks text L, c.length ≤ L) ∧
    nonFinalForced L (split_text_into_chunks text L) :=
  splitFuel_spec hL (text.length + 1) text (Nat.lt_succ_self _)

/-- C2 witness: the amended claim applied at T = "ab  cd", L = 3. -/
theorem chunker_roundtrip_and_bounds_witness :
    reassembles (split_text_into_chunks "ab  cd".toList 3) "ab  cd".toList :=
  (chunker_roundtrip_and_bounds "ab  cd".toList 3 (by decide) (by decide)).1

/-- C3, counterexample to the claim as stated: the whitespace-only input
`"   "` yields one chunk, not zero — the final `if text:` of
`split_text_into_chunks` keeps any non-empty string, whitespace or not. -/
theorem chunker_whitespace_only_yields_a_chunk :
    (∀ c ∈ "   ".toList, pyIsSpace c = true) ∧
    split_text_into_chunks "   ".toList 5 = ["   ".toList] := by decide

/-- C3 (amended): for every input text that is empty, `split` returns zero
chunks, for every positive `maxLength`.  (A whitespace-only but non-empty
input instead yields a chunk, see the counterexample.) -/
theorem chunker_empty_input_yields_no_chunks (L : Nat) (hL : 0 < L) :
    split_text_into_chunks [] L = [] := by
  show splitFuel (0 + 1) [] L = []
  rw [splitFuel_succ_of_ge (by simp)]
  simp

/-- C3 witness: the amended claim at L = 5. -/
theorem chunker_empty_input_yields_no_chunks_witness :
    0 < 5 ∧ split_text_into_chunks [] 5 = [] :=
  ⟨by decide, chunker_empty_input_yields_no_chunks 5 (by decide)⟩

/-- C4, counterexample to the claim as stated: for T = " a" (length 2 ≤ 5,
not whitespace-only), `split(T, 5)` returns `[" a"]` — the text verbatim —
whereas the claim demands `[T.strip()] = ["a"]`. -/
theorem chunker_short_text_not_stripped :
    split_text_into_chunks " a".toList 5 = [" a".toList] ∧
    pyStrip " a".toList = "a".toList ∧
    " a".toList ≠ "a".toList := by decide

/-- C4 (amended): for every `T` with `length(T) ≤ L` that is not
whitespace-only, and `0 < L`, `split(T, L)` returns exactly the one-element
sequence `[T]`: the single chunk is the text itself, untrimmed. -/
theorem chunker_short_text_single_chunk (text : List Char) (L : Nat)
    (hL : 0 < L) (hlen : text.length ≤ L)
    (hns : ∃ c ∈ text, pyIsSpace c = false) :
    split_text_into_chunks text L = [text] := by
  obtain ⟨c, hc, -⟩ := hns
  have hne : text ≠ [] := by rintro rfl; simp at hc
  show splitFuel (text.length + 1) text L = [text]
  rw [splitFuel_succ_of_ge (by omega)]
  rw [if_neg hne]

/-- C4 witness: the amended claim at T = " a", L = 5. -/
theorem chunker_short_text_single_chunk_witness :
    split_text_into_chunks " a".toList 5 = [" a".toList] :=
  chunker_short_text_single_chunk " a".toList 5 (by decide) (by decide)
    (by decide)

/-- C8 (confirmed): for every text and integer `maxLength ≥ 1`,
`split_text_into_chunks` terminates: each iteration of the loop strictly
shortens the remaining text, and consequently the fuel-indexed rendering of
the `while` loop no longer depends on the fuel bound once the fuel exceeds
the initial text length. -/
theorem chunker_termination (text : List Char) (L : Nat) (hL : 1 ≤ L) :
    (L < text.length → (chunkStep text L).2.length < text.length) ∧
    (∀ fuel, text.length < fuel →
      splitFuel fuel text L = split_text_into_chunks text L) := by
  constructor
  · intro h
    exact chunkStep_snd_length_lt hL h
  · intro fuel hf
    exact splitFuel_congr hL fuel text (text.length + 1) hf (Nat.lt_succ_self _)

/-- C8 witness: the termination bound and fuel-independence at a concrete
input. -/
theorem chunker_termination_witness :
    (chunkStep "a b c".toList 2).2.length < "a b c".toList.length ∧
    splitFuel 10 "a b c".toList 2 = split_text_into_chunks "a b c".toList 2 :=
  ⟨(chunker_termination "a b c".toList 2 (by decide)).1 (by decide),
   (chunker_termination "a b c".toList 2 (by decide)).2 10 (by decide)⟩

/-- C10 (confirmed): chunks are not guaranteed non-empty.  For the input
`" abcd"` with `maxLength = 3` — whose only space in the first 3 characters
sits at position 0, followed by a word longer than 3 — the first chunk
returned is the empty string. -/
theorem chunker_empty_chunk_exists :
    split_text_into_chunks " abcd".toList 3 = [[], "abc".toList, "d".toList] ∧
    [] ∈ split_text_into_chunks " abcd".toList 3 := by decide

/-- C5 (confirmed): retry policy of the synthesis client.  For every
per-attempt outcome function `f` and retry budget: (i) at most `retries`
attempts are made (default `retries = 3`); (ii) if the first success is at
attempt `k` (0-based, all earlier attempts failing), exactly `k + 1`
attempts run, the one produced artifact is returned, and the backoff sleeps
are `2^0, …, 2^(k-1)` time units in order; (iii) if every attempt fails,
the last attempt's error is propagated after exactly `retries` attempts,
with sleeps `2^0, …, 2^(retries-2)` — no sleep after the final failure. -/
theorem retry_policy (ε α : Type) (f : Nat → Except ε α) (retries : Nat) :
    (generate_audio_with_retries f retries).attempts ≤ retries ∧
    generate_audio_with_retries f = generate_audio_with_retries f 3 ∧
    (∀ k v, k < retries → (∀ j, j < k → ∃ e, f j = Except.error e) →
      f k = Except.ok v →
      generate_audio_with_retries f retries =
        ⟨some (Except.ok v), k + 1, (List.range k).map (fun j => 2 ^ j)⟩) ∧
    (∀ e, 0 < retries → (∀ j, j < retries → ∃ e', f j = Except.error e') →
      f (retries - 1) = Except.error e →
      generate_audio_with_retries f retries =
        ⟨some (Except.error e), retries,
          (List.range (retries - 1)).map (fun j => 2 ^ j)⟩) := by
  refine ⟨retryGo_attempts_le f retries 0, rfl, ?_, ?_⟩
  · intro k v hk hfail hv
    have h := retryGo_success f k 0 retries hk
      (fun j hj => by simpa using hfail j hj) v (by simpa using hv)
    show retryGo f 0 retries = _
    rw [h, List.range_eq_range']
  · intro e hpos hfail hlast
    have h := retryGo_allfail f retries 0 e hpos
      (fun j hj => by simpa using hfail j hj) (by simpa using hlast)
    show retryGo f 0 retries = _
    rw [h, List.range_eq_range']

/-- C5 witness: a chunk failing twice then succeeding makes exactly 3
attempts with sleeps 1 and 2; a chunk failing three times propagates the
error after exactly 3 attempts. -/
theorem retry_policy_witness :
    (generate_audio_with_retries
      (fun i => if i = 2 then Except.ok 42 else Except.error "boom") 3).attempts ≤ 3 ∧
    generate_audio_with_retries
        (fun i => if i = 2 then Except.ok 42 else Except.error "boom") 3 =
      ⟨some (Except.ok 42), 3, [1, 2]⟩ ∧
    generate_audio_with_retries
        (fun _ => (Except.error "boom" : Except String Nat)) 3 =
      ⟨some (Except.error "boom"), 3, [1, 2]⟩ := by
  refine ⟨(retry_policy String Nat
    (fun i => if i = 2 then Except.ok 42 else Except.error "boom") 3).1, ?_, ?_⟩
  · have h := (retry_policy String Nat
      (fun i => if i = 2 then Except.ok 42 else Except.error "boom") 3).2.2.1 2 42
      (by decide)
      (fun j hj => ⟨"boom", by
        have hj2 : j = 0 ∨ j = 1 := by omega
        rcases hj2 with rfl | rfl <;> rfl⟩)
      (by rfl)
    rw [h]
    rfl
  · have h := (retry_policy String Nat
      (fun _ => (Except.error "boom" : Except String Nat)) 3).2.2.2 "boom"
      (by decide) (fun j hj => ⟨"boom", rfl⟩) rfl
    rw [h]
    rfl

/-- C7 (confirmed): assembly fails closed on gaps.  If any chunk index below
the chunk count has no successful terminal result, `process_file` never
invokes `combine_audio_files`: no manifest is written and the document does
not complete. -/
theorem assembly_fails_closed (file_stem text : List Char) (max_length : Nat)
    (synthOk : Nat → Bool) (arrival : List Nat) (ffmpegOk : Bool)
    (harr : arrival.Perm
      (List.range (split_text_into_chunks text max_length).length))
    (hfail : ∃ i < (split_text_into_chunks text max_length).length,
      synthOk i = false) :
    (process_file file_stem text max_length synthOk arrival ffmpegOk).assemblyRan
        = false ∧
    (process_file file_stem text max_length synthOk arrival ffmpegOk).manifest
        = none ∧
    (process_file file_stem text max_length synthOk arrival ffmpegOk).outcome
        ≠ DocOutcome.Completed := by
  obtain ⟨i, hi, hsf⟩ := hfail
  by_cases hns : pyStrip text = []
  · rw [process_file_skip hns]
    exact ⟨rfl, rfl, by simp⟩
  · have hmem : i ∈ arrival := harr.mem_iff.mpr (List.mem_range.mpr hi)
    rw [process_file_collect_none hns (collectResults_none_of_fail hmem hsf)]
    exact ⟨rfl, rfl, by simp⟩

/-- C7 witness: chunk 1 of three fails terminally, so assembly never runs. -/
theorem assembly_fails_closed_witness :
    (process_file "doc".toList "aa bb cc".toList 2 (fun i => !(i == 1))
      [2, 0, 1] true).assemblyRan = false :=
  (assembly_fails_closed "doc".toList "aa bb cc".toList 2 (fun i => !(i == 1))
    [2, 0, 1] true (by decide) (by decide)).1

/-- C9 (confirmed): the source file is untouched on failure.  `process_file`
relocates the original input (line 164) only in the branch where collection,
the sort-key parse and `combine_audio_files` all succeeded; whenever the
document does not complete, `sourceMoved` is false, and `sourceMoved = true`
forces a completed outcome with assembly run and ffmpeg successful. -/
theorem source_relocated_only_after_success (file_stem text : List Char)
    (max_length : Nat) (synthOk : Nat → Bool) (arrival : List Nat)
    (ffmpegOk : Bool) :
    ((process_file file_stem text max_length synthOk arrival ffmpegOk).outcome
        ≠ DocOutcome.Completed →
      (process_file file_stem text max_length synthOk arrival ffmpegOk).sourceMoved
        = false) ∧
    ((process_file file_stem text max_length synthOk arrival ffmpegOk).sourceMoved
        = true →
      (process_file file_stem text max_length synthOk arrival ffmpegOk).outcome
          = DocOutcome.Completed ∧
      (process_file file_stem text max_length synthOk arrival ffmpegOk).assemblyRan
          = true ∧
      ffmpegOk = true) := by
  by_cases hns : pyStrip text = []
  · rw [process_file_skip hns]
    exact ⟨fun _ => rfl, fun h => absurd h (by simp)⟩
  · cases hc : collectResults synthOk file_stem arrival with
    | none =>
      rw [process_file_collect_none hns hc]
      exact ⟨fun _ => rfl, fun h => absurd h (by simp)⟩
    | some files =>
      by_cases hall : files.all (fun f => (recoverIndex f).isSome) = true
      · rw [process_file_assemble hns hc hall]
        by_cases hff : ffmpegOk = true
        · rw [if_pos hff]
          exact ⟨fun h => absurd rfl h, fun _ => ⟨rfl, rfl, hff⟩⟩
        · rw [if_neg hff]
          exact ⟨fun _ => rfl, fun h => absurd h (by simp)⟩
      · rw [process_file_parse_fail hns hc hall]
        exact ⟨fun _ => rfl, fun h => absurd h (by simp)⟩

/-- C9 witness: in a fully successful run the source is relocated and the
theorem forces the completed outcome. -/
theorem source_relocated_only_after_success_witness :
    (process_file "doc".toList "aa bb cc".toList 2 (fun _ => true)
      [2, 0, 1] true).outcome = DocOutcome.Completed :=
  ((source_relocated_only_after_success "doc".toList "aa bb cc".toList 2
    (fun _ => true) [2, 0, 1] true).2 (by decide)).1

/-- C1 (code bug evidence): the chunk audio artifacts of distinct documents
`a` and `b` live in their own per-stem subdirectories of the working area,
but the assembly manifest does not: `combine_audio_files` writes every
document's manifest to the single shared path `temp/concat_list.txt`
(line 104), which lies inside neither document's subdirectory, so two
documents assembling concurrently write the same intermediate path. -/
theorem manifest_path_shared_across_documents :
    "a".toList ≠ "b".toList ∧
    (combine_audio_files [audioArtifactPath "a".toList 0]
        "output/a/a.mp3".toList true).manifestPath =
      (combine_audio_files [audioArtifactPath "b".toList 0]
        "output/b/b.mp3".toList true).manifestPath ∧
    (combine_audio_files [audioArtifactPath "a".toList 0]
        "output/a/a.mp3".toList true).manifestPath = concat_file ∧
    (docSubdir "a".toList ++ ['/']).isPrefixOf (audioArtifactPath "a".toList 0)
        = true ∧
    (docSubdir "b".toList ++ ['/']).isPrefixOf (audioArtifactPath "b".toList 0)
        = true ∧
    (docSubdir "a".toList ++ ['/']).isPrefixOf concat_file = false ∧
    (docSubdir "b".toList ++ ['/']).isPrefixOf concat_file = false := by
  decide

/-- C6, counterexample to the claim as stated: for the document stem
`"_part_x_part"`, which contains the `'_part_'` separator, the sort key
`int(x.stem.split('_part_')[-1])` raises `ValueError` (the left-to-right
non-overlapping split leaves the last segment `"part_3"`), so no manifest is
written at all and the document fails instead of being assembled in index
order. -/
theorem assembler_crashes_on_part_stem :
    "_part_x_part".toList = partSep ++ "x_part".toList ∧
    recoverIndex (audioFileStem "_part_x_part".toList 2) = none ∧
    (process_file "_part_x_part".toList "aa bb cc".toList 2 (fun _ => true)
      [2, 0, 1] true).manifest = none ∧
    (process_file "_part_x_part".toList "aa bb cc".toList 2 (fun _ => true)
      [2, 0, 1] true).outcome = DocOutcome.Failed := by decide

/-- C6 (amended): for every document stem for which the filename parse
recovers each chunk's 1-based number (`recoverIndex (audioFileStem stem i)
= some (i + 1)`, which holds for ordinary stems but fails for some stems
containing or abutting the `'_part_'` separator, see the counterexample),
whatever the arrival order of a complete, all-successful result set, the
manifest lists the artifact paths sorted by chunk index ascending. -/
theorem assembler_sorts_by_index (file_stem text : List Char)
    (max_length : Nat) (synthOk : Nat → Bool) (arrival : List Nat)
    (ffmpegOk : Bool)
    (hns : ¬ pyStrip text = [])
    (harr : arrival.Perm
      (List.range (split_text_into_chunks text max_length).length))
    (hok : ∀ i, synthOk i = true)
    (hkeys : ∀ i < (split_text_into_chunks text max_length).length,
      recoverIndex (audioFileStem file_stem i) = some (i + 1)) :
    (process_file file_stem text max_length synthOk arrival ffmpegOk).manifest =
      some ((List.range (split_text_into_chunks text max_length).length).map
        (audioArtifactPath file_stem)) := by
  have hc : collectResults synthOk file_stem arrival =
      some (arrival.map (audioFileStem file_stem)) :=
    collectResults_all_ok (fun i _ => hok i)
  have hmemn : ∀ i ∈ arrival,
      i < (split_text_into_chunks text max_length).length :=
    fun i hi => List.mem_range.mp (harr.mem_iff.mp hi)
  have hall : (arrival.map (audioFileStem file_stem)).all
      (fun f => (recoverIndex f).isSome) = true := by
    rw [List.all_eq_true]
    intro f hf
    rw [List.mem_map] at hf
    obtain ⟨i, hi, rfl⟩ := hf
    rw [hkeys i (hmemn i hi)]
    rfl
  rw [process_file_assemble hns hc hall]
  have hsort : sortAudioFiles (arrival.map (audioFileStem file_stem)) =
      (List.range (split_text_into_chunks text max_length).length).map
        (audioFileStem file_stem) := by
    apply eq_of_perm_of_sorted_strict sortKey
    · exact (sortAudioFiles_perm _).trans (harr.map _)
    · exact sortAudioFiles_sorted _
    · rw [List.pairwise_map]
      refine (List.pairwise_lt_range _).imp_of_mem ?_
      intro a b ha hb hab
      have hka : sortKey (audioFileStem file_stem a) = a + 1 := by
        unfold sortKey
        rw [hkeys a (List.mem_range.mp ha)]
        rfl
      have hkb : sortKey (audioFileStem file_stem b) = b + 1 := by
        unfold sortKey
        rw [hkeys b (List.mem_range.mp hb)]
        rfl
      rw [hka, hkb]
      omega
  by_cases hff : ffmpegOk = true
  · rw [if_pos hff]
    show some _ = _
    unfold manifestPaths
    rw [hsort, List.map_map]
    rfl
  · rw [if_neg hff]
    show some _ = _
    unfold manifestPaths
    rw [hsort, List.map_map]
    rfl

/-- C6 witness: three chunks completing in arrival order [2, 0, 1] are
listed in the manifest in index order [0, 1, 2]. -/
theorem assembler_sorts_by_index_witness :
    (process_file "doc".toList "aa bb cc".toList 2 (fun _ => true)
      [2, 0, 1] true).manifest =
      some ((List.range
        (split_text_into_chunks "aa bb cc".toList 2).length).map
          (audioArtifactPath "doc".toList)) :=
  assembler_sorts_by_index "doc".toList "aa bb cc".toList 2 (fun _ => true)
    [2, 0, 1] true (by decide) (by decide) (fun _ => rfl) (by decide)

end BatchSpeechText
